import Mathlib

/-!
Verification of the core algorithmic components of the Splitwise/Omi
integration app (`src/main.py`, `src/models.py`).

Modelling conventions for the shallow embedding:
* Python strings are `List Char`; `str.lower` is modelled as ASCII
  lowercasing (`Char.toLower`), `str.strip()` as removing leading and
  trailing whitespace.
* Python `Decimal` values and `float` similarity scores are modelled as
  exact rationals (`ℚ`).  `Decimal` context precision (28 significant
  digits) is not modelled: all claim-relevant arithmetic here is exact at
  far lower precision.  `Decimal` non-finite literals ("nan", "inf") are
  not modelled.
* Fallible operations return `Option` / an explicit result type.
-/

attribute [local semireducible] Rat.mul Rat.inv Rat.add Rat.sub Rat.ofScientific

set_option maxRecDepth 16000

abbrev Str := List Char

/-- ASCII model of Python `str.lower()`. -/
def lowerStr (s : Str) : Str := s.map Char.toLower

/-- Model of Python `str.strip()`: drop leading and trailing whitespace. -/
def stripStr (s : Str) : Str :=
  ((s.dropWhile Char.isWhitespace).reverse.dropWhile Char.isWhitespace).reverse

/-- `isPrefixStr pat s` is Python `s.startswith(pat)`. -/
def isPrefixStr : Str → Str → Bool
  | [], _ => true
  | _ :: _, [] => false
  | a :: as, c :: cs => a == c && isPrefixStr as cs

/-- `containsStr hay pat` is Python `pat in hay` (substring containment). -/
def containsStr : Str → Str → Bool
  | [], pat => pat.isEmpty
  | hay@(_ :: t), pat => isPrefixStr pat hay || containsStr t pat

/-- Truncation toward zero of a rational, as Python `int(...)` and
`decimal.ROUND_DOWN` round. -/
def ratTrunc (q : ℚ) : ℤ := q.num.tdiv q.den

/-- Model of `Decimal.quantize(Decimal("0.01"), rounding=ROUND_DOWN)`:
round to a multiple of 1/100 toward zero. -/
def quantize2Down (x : ℚ) : ℚ := (ratTrunc (x * 100) : ℚ) / 100

/-- `compute_equal_shares` (src/main.py:300-318).  Division by zero
(`num_people = 0`, which raises in Python) is not modelled; all claims
assume at least one participant. -/
def compute_equal_shares (total : ℚ) (num_people : ℕ) : List ℚ :=
  let base_share := quantize2Down (total / (num_people : ℚ))
  let remainder := total - base_share * (num_people : ℚ)
  let remainder_cents := ratTrunc (remainder * 100)
  (List.range num_people).map (fun (i : ℕ) =>
    if (i : ℤ) < remainder_cents then base_share + 1/100 else base_share)

theorem ratTrunc_of_nonneg {q : ℚ} (h : 0 ≤ q) : ratTrunc q = ⌊q⌋ := by
  unfold ratTrunc
  rw [Int.tdiv_eq_ediv (Rat.num_nonneg.mpr h) (Int.ofNat_nonneg q.den), Rat.floor_def]

theorem ratTrunc_intCast (z : ℤ) : ratTrunc (z : ℚ) = z := by
  unfold ratTrunc
  rw [Rat.num_intCast, Rat.den_intCast]
  exact Int.tdiv_one z

theorem sum_range_map_ite_lt (x y : ℚ) :
    ∀ (n k : ℕ), k ≤ n →
      ((List.range n).map (fun i => if i < k then x + y else x)).sum
        = n * x + k * y := by
  intro n
  induction n with
  | zero => intro k hk; interval_cases k; simp
  | succ m ih =>
    intro k hk
    rw [List.range_succ, List.map_append, List.sum_append]
    rcases Nat.lt_or_ge k (m + 1) with hkm | hkm
    · have hk' : k ≤ m := Nat.lt_succ_iff.mp hkm
      have : ¬ (m < k) := Nat.not_lt.mpr hk'
      simp only [List.map_cons, List.map_nil, List.sum_cons, List.sum_nil, this, if_false,
        ih k hk']
      push_cast
      ring
    · have hk' : k = m + 1 := Nat.le_antisymm hk hkm
      subst hk'
      have hmm : m < m + 1 := Nat.lt_succ_self m
      have ihm : ((List.range m).map (fun i => if i < m + 1 then x + y else x)).sum
          = ((List.range m).map (fun _ => x + y)).sum := by
        apply congrArg
        apply List.map_congr_left
        intro i hi
        rw [if_pos (Nat.lt_succ_of_lt (List.mem_range.mp hi))]
      simp only [List.map_cons, List.map_nil, List.sum_cons, List.sum_nil, hmm, if_pos, ihm,
        List.map_const', List.sum_replicate, smul_eq_mul, List.length_range]
      push_cast
      ring

theorem compute_equal_shares_cents (c : ℤ) (n : ℕ) (hc : 0 ≤ c) (hn : 1 ≤ n) :
    compute_equal_shares ((c : ℚ) / 100) n =
      (List.range n).map (fun (i : ℕ) =>
        if (i : ℤ) < c % (n : ℤ) then ((c / (n : ℤ) : ℤ) : ℚ) / 100 + 1/100
        else ((c / (n : ℤ) : ℤ) : ℚ) / 100) := by
  have hnq : ((n : ℚ)) ≠ 0 := by
    have : (0 : ℕ) < n := hn
    positivity
  have hx : ((c : ℚ)/100) / (n : ℚ) * 100 = (c : ℚ) / (n : ℚ) := by
    field_simp
    ring
  have hbase : quantize2Down (((c : ℚ)/100) / (n : ℚ)) = ((c / (n : ℤ) : ℤ) : ℚ) / 100 := by
    unfold quantize2Down
    rw [hx, ratTrunc_of_nonneg (div_nonneg (by exact_mod_cast hc) (by positivity)),
      Rat.floor_intCast_div_natCast]
  have hmod : ((c % (n : ℤ) : ℤ) : ℚ) = (c : ℚ) - (n : ℚ) * ((c / (n : ℤ) : ℤ) : ℚ) := by
    have := Int.emod_def c (n : ℤ)
    push_cast [this]
    ring
  have hrem : (c : ℚ)/100 - ((c / (n : ℤ) : ℤ) : ℚ) / 100 * (n : ℚ)
      = ((c % (n : ℤ) : ℤ) : ℚ) / 100 := by
    rw [hmod]; ring
  have hcents : ratTrunc (((c % (n : ℤ) : ℤ) : ℚ) / 100 * 100) = c % (n : ℤ) := by
    rw [div_mul_cancel₀ _ (by norm_num : (100 : ℚ) ≠ 0), ratTrunc_intCast]
  simp only [compute_equal_shares, hbase, hrem, hcents]

/-- C1 counterexample: for the positive decimal total 0.005 (= 1/200) and a
single participant, the shares returned by `compute_equal_shares` sum to 0,
not to the total, so the frozen claim fails as stated. -/
theorem c1_counterexample :
    0 < (1/200 : ℚ) ∧ (compute_equal_shares (1/200) 1).sum ≠ 1/200 := by
  refine ⟨by norm_num, ?_⟩
  have h0 : ratTrunc ((1 : ℚ)/2) = 0 := by
    rw [ratTrunc_of_nonneg (by norm_num)]
    norm_num
  have hq : quantize2Down ((1/200 : ℚ) / ((1:ℕ) : ℚ)) = 0 := by
    unfold quantize2Down
    rw [show ((1/200 : ℚ) / ((1:ℕ) : ℚ)) * 100 = (1 : ℚ)/2 by push_cast; ring, h0]
    norm_num
  have hshares : compute_equal_shares (1/200) 1 = [0] := by
    simp only [compute_equal_shares, hq, List.range_succ, List.range_zero, List.map_cons,
      List.map_nil, List.nil_append, List.map_append]
    norm_num [show (1/200 : ℚ) * 100 = (1 : ℚ)/2 by ring, h0]
  rw [hshares]
  norm_num

/-- **C1** (amended): for every positive total that is a whole number of
cents (`total = c/100`, `0 < c`) and every participant count `n ≥ 1`, the
list returned by `compute_equal_shares` sums exactly to the total.  (As
frozen, the claim quantifies over every positive decimal total; it fails
for sub-cent totals, see `c1_counterexample`.) -/
theorem c1_sum_exact_cents (c : ℤ) (n : ℕ) (hc : 0 < c) (hn : 1 ≤ n) :
    (compute_equal_shares ((c : ℚ)/100) n).sum = (c : ℚ)/100 := by
  rw [compute_equal_shares_cents c n (le_of_lt hc) hn]
  have hnz : ((n : ℤ)) ≠ 0 := by
    have : (0:ℕ) < n := hn
    omega
  have hn0 : (0:ℤ) < (n:ℤ) := by omega
  have hr0 : 0 ≤ c % (n:ℤ) := Int.emod_nonneg c hnz
  have hrn : c % (n:ℤ) < (n:ℤ) := Int.emod_lt_of_pos c hn0
  set k := (c % (n:ℤ)).toNat with hk
  have hcast : ((k:ℤ)) = c % (n:ℤ) := Int.toNat_of_nonneg hr0
  have hkn : k ≤ n := by omega
  have hmap : (List.range n).map (fun (i : ℕ) =>
        if (i : ℤ) < c % (n : ℤ) then ((c / (n : ℤ) : ℤ) : ℚ) / 100 + 1/100
        else ((c / (n : ℤ) : ℤ) : ℚ) / 100)
      = (List.range n).map (fun i =>
        if i < k then ((c / (n : ℤ) : ℤ) : ℚ) / 100 + 1/100
        else ((c / (n : ℤ) : ℤ) : ℚ) / 100) := by
    apply List.map_congr_left
    intro i _
    by_cases h : i < k
    · rw [if_pos h, if_pos (by omega)]
    · rw [if_neg h, if_neg (by omega)]
  rw [hmap, sum_range_map_ite_lt _ _ n k hkn]
  have hid : (n:ℤ) * (c / (n:ℤ)) + c % (n:ℤ) = c := Int.ediv_add_emod c (n:ℤ)
  have hidq : ((n:ℚ)) * ((c / (n:ℤ) : ℤ) : ℚ) + ((c % (n:ℤ) : ℤ) : ℚ) = (c:ℚ) := by
    exact_mod_cast congrArg (fun z : ℤ => (z : ℚ)) hid
  have hkq : (k : ℚ) = ((c % (n:ℤ) : ℤ) : ℚ) := by exact_mod_cast hcast
  rw [hkq]
  linear_combination hidq / 100

theorem c1_sum_exact_cents_witness :
    (0:ℤ) < 1000 ∧ (1:ℕ) ≤ 3 ∧
      (compute_equal_shares (((1000:ℤ) : ℚ)/100) 3).sum = ((1000:ℤ) : ℚ)/100 :=
  ⟨by norm_num, by norm_num, c1_sum_exact_cents 1000 3 (by norm_num) (by norm_num)⟩

theorem getD_map_range (f : ℕ → ℚ) (i n : ℕ) (h : i < n) :
    ((List.range n).map f).getD i 0 = f i := by
  rw [List.getD_eq_getElem?_getD, List.getElem?_map, List.getElem?_range h]
  rfl

theorem compute_equal_shares_def (total : ℚ) (n : ℕ) :
    compute_equal_shares total n =
      (List.range n).map (fun (i : ℕ) =>
        if (i : ℤ) < ratTrunc ((total - quantize2Down (total / (n:ℚ)) * (n:ℚ)) * 100)
        then quantize2Down (total / (n:ℚ)) + 1/100
        else quantize2Down (total / (n:ℚ))) := rfl

/-- **C2**: `compute_equal_shares total n` returns exactly `n` shares, each
equal to the truncated-to-2-decimals base, except that the first
`remainder_cents` shares (in participant order) each receive one extra
cent; and the two concrete evaluations from the spec hold:
`split(10.00, 3) = [3.34, 3.33, 3.33]`, `split(9.99, 3) = [3.33, 3.33, 3.33]`. -/
theorem c2_shares_structure :
    (∀ (total : ℚ) (n : ℕ),
      (compute_equal_shares total n).length = n ∧
      ∀ i, i < n →
        (compute_equal_shares total n).getD i 0 =
          (if (i : ℤ) < ratTrunc ((total - quantize2Down (total / (n:ℚ)) * (n:ℚ)) * 100)
           then quantize2Down (total / (n:ℚ)) + 1/100
           else quantize2Down (total / (n:ℚ)))) ∧
    compute_equal_shares 10 3 = [167/50, 333/100, 333/100] ∧
    compute_equal_shares (999/100) 3 = [333/100, 333/100, 333/100] := by
  refine ⟨fun total n =>
    ⟨by rw [compute_equal_shares_def, List.length_map, List.length_range], fun i hi => ?_⟩,
    ?_, ?_⟩
  · rw [compute_equal_shares_def]
    exact getD_map_range _ i n hi
  · rw [show (10 : ℚ) = ((1000:ℤ) : ℚ)/100 by norm_num,
      compute_equal_shares_cents 1000 3 (by norm_num) (by norm_num)]
    norm_num [List.range_succ]
  · rw [show (999/100 : ℚ) = ((999:ℤ) : ℚ)/100 by norm_num,
      compute_equal_shares_cents 999 3 (by norm_num) (by norm_num)]
    norm_num [List.range_succ]

theorem c2_shares_structure_witness :
    (0:ℕ) < 3 ∧
      (compute_equal_shares 10 3).getD 0 0 =
        (if ((0:ℕ) : ℤ) < ratTrunc ((10 - quantize2Down (10 / ((3:ℕ):ℚ)) * ((3:ℕ):ℚ)) * 100)
         then quantize2Down (10 / ((3:ℕ):ℚ)) + 1/100
         else quantize2Down (10 / ((3:ℕ):ℚ))) :=
  ⟨by norm_num, (c2_shares_structure.1 10 3).2 0 (by norm_num)⟩

/-!
## difflib.SequenceMatcher ratio, used by the fuzzy matchers

`fuzzy_match_friend` and `fuzzy_match_group` score names with
`difflib.SequenceMatcher(None, a, b).ratio()`.  The embedding follows
CPython difflib with `isjunk = None`: `b2j` maps each character of `b` to
its (increasing) list of indices, dropping popular characters under the
autojunk heuristic (only when `b` has at least 200 characters);
`findLongestMatch` is the dynamic-programming scan of
`find_longest_match`; the queue recursion of `get_matching_blocks` is
modelled by `matchesGo`, which accumulates only the total matched size
(the queue processing order does not affect that sum, and the final sort
and merge of adjacent blocks do not change it either).  With
`isjunk = None` the junk set is empty, so the two junk-extension loops of
`find_longest_match` never fire and are omitted; the two plain extension
loops are `extendBack` and `extendFwd`.  `matchesGo` runs on fuel: each
recursive call strictly shrinks the combined interval size, so the
initial fuel `a.length + b.length + 1` always suffices.
-/

def b2jIdx (b : Str) (c : Char) : List ℕ :=
  (List.range b.length).filter (fun j => b.getD j ' ' == c)

def b2j (b : Str) (c : Char) : List ℕ :=
  let idxs := b2jIdx b c
  if 200 ≤ b.length ∧ b.length / 100 + 1 < idxs.length then [] else idxs

structure BestBlock where
  besti : ℕ
  bestj : ℕ
  bestsize : ℕ
deriving DecidableEq

def flmInner (blo bhi i : ℕ) (j2len : ℕ → ℕ) :
    List ℕ → (ℕ → ℕ) → BestBlock → (ℕ → ℕ) × BestBlock
  | [], newj2len, best => (newj2len, best)
  | j :: js, newj2len, best =>
    if j < blo then flmInner blo bhi i j2len js newj2len best
    else if bhi ≤ j then (newj2len, best)
    else
      let k := (if j = 0 then 0 else j2len (j - 1)) + 1
      let newj2len' := fun x => if x = j then k else newj2len x
      let best' : BestBlock := if best.bestsize < k then ⟨i + 1 - k, j + 1 - k, k⟩ else best
      flmInner blo bhi i j2len js newj2len' best'

def flmOuter (b2jf : Char → List ℕ) (a : Str) (blo bhi : ℕ) :
    List ℕ → (ℕ → ℕ) → BestBlock → BestBlock
  | [], _, best => best
  | i :: rest, j2len, best =>
    let r := flmInner blo bhi i j2len (b2jf (a.getD i ' ')) (fun _ => 0) best
    flmOuter b2jf a blo bhi rest r.1 r.2

def extendBackGo (a b : Str) (alo blo : ℕ) : ℕ → ℕ → ℕ → ℕ → ℕ × ℕ × ℕ
  | 0, besti, bestj, bestsize => (besti, bestj, bestsize)
  | fuel + 1, besti, bestj, bestsize =>
    if alo < besti ∧ blo < bestj ∧ a.getD (besti - 1) ' ' = b.getD (bestj - 1) ' ' then
      extendBackGo a b alo blo fuel (besti - 1) (bestj - 1) (bestsize + 1)
    else (besti, bestj, bestsize)

/-- The first (backwards) extension while-loop of `find_longest_match`.
Each iteration decreases `besti` by one, so running with fuel `besti` is
exhaustive: at fuel 0 the value of `besti` is 0 and the loop guard
`alo < besti` is false anyway. -/
def extendBack (a b : Str) (alo blo besti bestj bestsize : ℕ) : ℕ × ℕ × ℕ :=
  extendBackGo a b alo blo besti besti bestj bestsize

def extendFwdGo (a b : Str) (ahi bhi : ℕ) : ℕ → ℕ → ℕ → ℕ → ℕ
  | 0, _, _, bestsize => bestsize
  | fuel + 1, besti, bestj, bestsize =>
    if besti + bestsize < ahi ∧ bestj + bestsize < bhi ∧
        a.getD (besti + bestsize) ' ' = b.getD (bestj + bestsize) ' ' then
      extendFwdGo a b ahi bhi fuel besti bestj (bestsize + 1)
    else bestsize

/-- The second (forwards) extension while-loop of `find_longest_match`.
Each iteration decreases `ahi - (besti + bestsize)` by one, so that fuel
is exhaustive: at fuel 0 the guard `besti + bestsize < ahi` is false. -/
def extendFwd (a b : Str) (ahi bhi besti bestj bestsize : ℕ) : ℕ :=
  extendFwdGo a b ahi bhi (ahi - (besti + bestsize)) besti bestj bestsize

def findLongestMatch (a b : Str) (alo ahi blo bhi : ℕ) : BestBlock :=
  let st := flmOuter (b2j b) a blo bhi (List.range' alo (ahi - alo)) (fun _ => 0) ⟨alo, blo, 0⟩
  let e := extendBack a b alo blo st.besti st.bestj st.bestsize
  let sz := extendFwd a b ahi bhi e.1 e.2.1 e.2.2
  ⟨e.1, e.2.1, sz⟩

def matchesGo (a b : Str) : ℕ → ℕ → ℕ → ℕ → ℕ → ℕ
  | 0, _, _, _, _ => 0
  | fuel + 1, alo, ahi, blo, bhi =>
    let m := findLongestMatch a b alo ahi blo bhi
    if m.bestsize = 0 then 0
    else
      m.bestsize
        + (if alo < m.besti ∧ blo < m.bestj then matchesGo a b fuel alo m.besti blo m.bestj
           else 0)
        + (if m.besti + m.bestsize < ahi ∧ m.bestj + m.bestsize < bhi then
             matchesGo a b fuel (m.besti + m.bestsize) ahi (m.bestj + m.bestsize) bhi
           else 0)

def smMatches (a b : Str) : ℕ :=
  matchesGo a b (a.length + b.length + 1) 0 a.length 0 b.length

/-- `difflib.SequenceMatcher(None, a, b).ratio()`: `2.0 * M / T` where `M`
is the total size of the matching blocks and `T` the combined length;
`1.0` when both strings are empty. -/
def ratio (a b : Str) : ℚ :=
  if a.length + b.length = 0 then 1
  else 2 * (smMatches a b : ℚ) / ((a.length + b.length : ℕ) : ℚ)

/-!
## Name resolution (`fuzzy_match_friend`, `fuzzy_match_group`)

`SplitwiseFriend` / `SplitwiseGroup` are the pydantic models from
src/models.py.  Scores, and the thresholds 0.6 / 0.85 / 1.0 / 0.8, are
modelled as exact rationals; in CPython they are floats, but no claim here
depends on float rounding of these constants.
-/

structure SplitwiseFriend where
  id : ℤ
  first_name : Str
  last_name : Option Str
  email : Option Str
deriving DecidableEq

structure SplitwiseGroup where
  id : ℤ
  name : Str
deriving DecidableEq

/-- Python `x or ""` on an optional string: `None` and `""` both give `""`. -/
def orEmpty : Option Str → Str
  | none => []
  | some s => s

/-- The per-friend score of `fuzzy_match_friend` (src/main.py:156-178):
maximum of the sequence ratios against the full-name / first-name /
last-name / email-local-part projections, plus the 0.85 substring-or-
prefix boost and the 1.0 exact-first-or-last-name boost.  Python's
`max(scores)` on the nonempty list is `foldl max` seeded with the head. -/
def friendScore (name_lower : Str) (f : SplitwiseFriend) : ℚ :=
  let full_name := lowerStr (stripStr (f.first_name ++ [' '] ++ orEmpty f.last_name))
  let first_name := if f.first_name.isEmpty then [] else lowerStr f.first_name
  let last_name := lowerStr (orEmpty f.last_name)
  let email_local :=
    match f.email with
    | none => []
    | some e => if e.isEmpty then [] else lowerStr (e.takeWhile (fun c => c ≠ '@'))
  let scores : List ℚ :=
    [ratio name_lower full_name,
     ratio name_lower first_name,
     if ¬ last_name.isEmpty then ratio name_lower last_name else 0,
     if ¬ email_local.isEmpty then ratio name_lower email_local else 0]
  let scores := scores ++
    (if containsStr full_name name_lower || isPrefixStr name_lower full_name
     then [(0.85 : ℚ)] else [])
  let scores := scores ++
    (if name_lower = first_name ∨ name_lower = last_name then [(1 : ℚ)] else [])
  scores.foldl max (scores.headD 0)

/-- `fuzzy_match_friend` (src/main.py:145-189).  Python's stable
`sort(key=score, reverse=True)` is `mergeSort` with the descending
comparison.  Returns `(best_match, confidence, top_candidates)`. -/
def fuzzy_match_friend (name : Str) (friends : List SplitwiseFriend)
    (threshold : ℚ) : Option SplitwiseFriend × ℚ × List SplitwiseFriend :=
  if friends.isEmpty then (none, 0, [])
  else
    let name_lower := stripStr (lowerStr name)
    let scored_friends := friends.map (fun f => (f, friendScore name_lower f))
    let sorted := scored_friends.mergeSort (fun x y => decide (y.2 ≤ x.2))
    match sorted with
    | [] => (none, 0, [])
    | (best_match, best_score) :: _ =>
      let top_candidates :=
        ((sorted.take 3).filter (fun p => decide (threshold * 0.8 ≤ p.2))).map Prod.fst
      if threshold ≤ best_score then (some best_match, best_score, top_candidates)
      else (none, best_score, top_candidates)

/-- `fuzzy_match_group` (src/main.py:192-215): single-projection scoring
with the same 0.85 substring/prefix boost, tracking the strictly best
score in input order. -/
def fuzzy_match_group (name : Str) (groups : List SplitwiseGroup)
    (threshold : ℚ) : Option SplitwiseGroup × ℚ :=
  if groups.isEmpty then (none, 0)
  else
    let name_lower := stripStr (lowerStr name)
    let best := groups.foldl (fun (acc : Option SplitwiseGroup × ℚ) g =>
      let group_name_lower := lowerStr g.name
      let score := ratio name_lower group_name_lower
      let score :=
        if containsStr group_name_lower name_lower || isPrefixStr name_lower group_name_lower
        then max score 0.85 else score
      if acc.2 < score then (some g, score) else acc) (none, 0)
    if threshold ≤ best.2 then best
    else (none, best.2)

theorem fuzzy_match_friend_singleton (q : Str) (f : SplitwiseFriend) (θ : ℚ) :
    fuzzy_match_friend q [f] θ =
      (if θ ≤ friendScore (stripStr (lowerStr q)) f
       then (some f, friendScore (stripStr (lowerStr q)) f,
             if θ * 0.8 ≤ friendScore (stripStr (lowerStr q)) f then [f] else [])
       else (none, friendScore (stripStr (lowerStr q)) f,
             if θ * 0.8 ≤ friendScore (stripStr (lowerStr q)) f then [f] else [])) := by
  simp only [fuzzy_match_friend, List.isEmpty_cons, Bool.false_eq_true, if_false,
    List.map_cons, List.map_nil, List.mergeSort_singleton, List.take_succ_cons,
    List.take_nil, List.filter_cons, List.filter_nil, decide_eq_true_eq]
  by_cases h1 : θ * 0.8 ≤ friendScore (stripStr (lowerStr q)) f <;>
    by_cases h2 : θ ≤ friendScore (stripStr (lowerStr q)) f <;>
      simp [h1, h2]

theorem init_le_foldl_max (l : List ℚ) (a : ℚ) : a ≤ l.foldl max a := by
  induction l generalizing a with
  | nil => exact le_refl a
  | cons y ys ih => exact le_trans (le_max_left a y) (ih (max a y))

theorem le_foldl_max (l : List ℚ) (a x : ℚ) (hx : x ∈ l) : x ≤ l.foldl max a := by
  induction l generalizing a with
  | nil => cases hx
  | cons y ys ih =>
    rcases List.mem_cons.mp hx with rfl | h
    · exact le_trans (le_max_right a x) (init_le_foldl_max ys (max a x))
    · exact ih (max a y) h

theorem containsStr_nil (hay : Str) : containsStr hay [] = true := by
  cases hay <;> simp [containsStr, isPrefixStr]

/-- The empty (normalized) query is a substring of every full-name
projection, so every friend's score is at least the 0.85 boost. -/
theorem friendScore_empty_query (f : SplitwiseFriend) :
    (0.85 : ℚ) ≤ friendScore [] f := by
  unfold friendScore
  simp only [containsStr_nil, Bool.true_or, if_true]
  apply le_foldl_max
  simp [List.mem_append]

/-- Shape of `fuzzy_match_friend` on a nonempty friends list: the sorted
scored list is nonempty, its head is returned as the best score, and the
candidates are the filtered first three entries. -/
theorem fuzzy_match_friend_cons (q : Str) (f0 : SplitwiseFriend)
    (fs : List SplitwiseFriend) (θ : ℚ) :
    ∃ bf bs rest,
      ((f0 :: fs).map (fun f => (f, friendScore (stripStr (lowerStr q)) f))).mergeSort
          (fun x y => decide (y.2 ≤ x.2)) = (bf, bs) :: rest ∧
      fuzzy_match_friend q (f0 :: fs) θ =
        (if θ ≤ bs then some bf else none, bs,
          ((((bf, bs) :: rest).take 3).filter (fun p => decide (θ * 0.8 ≤ p.2))).map
            Prod.fst) := by
  have hlen : (((f0 :: fs).map (fun f => (f, friendScore (stripStr (lowerStr q)) f))).mergeSort
      (fun x y => decide (y.2 ≤ x.2))).length = fs.length + 1 := by
    rw [List.length_mergeSort, List.length_map, List.length_cons]
  rcases hs : ((f0 :: fs).map (fun f => (f, friendScore (stripStr (lowerStr q)) f))).mergeSort
      (fun x y => decide (y.2 ≤ x.2)) with _ | ⟨⟨bf, bs⟩, rest⟩
  · rw [hs] at hlen
    simp at hlen
  · refine ⟨bf, bs, rest, rfl, ?_⟩
    simp only [fuzzy_match_friend, List.isEmpty_cons, Bool.false_eq_true, if_false, hs]
    by_cases hm : θ ≤ bs <;> simp [hm]

/-- C3 counterexample: with the single friend "john" and the query "john"
the score is 1.0 ≥ 0.6, a match is returned, and the candidates list is
`[john]`, not empty — the frozen claim's "empty candidates on match"
fails. -/
theorem c3_counterexample :
    (0.6 : ℚ) ≤ (fuzzy_match_friend ("john".toList)
        [⟨1, "john".toList, none, none⟩] 0.6).2.1 ∧
      (fuzzy_match_friend ("john".toList) [⟨1, "john".toList, none, none⟩] 0.6).1
        = some ⟨1, "john".toList, none, none⟩ ∧
      (fuzzy_match_friend ("john".toList) [⟨1, "john".toList, none, none⟩] 0.6).2.2
        ≠ [] := by
  have h : fuzzy_match_friend ("john".toList) [⟨1, "john".toList, none, none⟩] 0.6
      = (some ⟨1, "john".toList, none, none⟩, 1, [⟨1, "john".toList, none, none⟩]) := by
    rw [fuzzy_match_friend_singleton]
    have hs : friendScore (stripStr (lowerStr ("john".toList)))
        ⟨1, "john".toList, none, none⟩ = 1 := by decide
    rw [hs]
    norm_num
  rw [h]
  refine ⟨by norm_num, rfl, by simp⟩

/-- **C3** (amended): when the winning score clears the threshold (the
threshold being nonnegative, as the default 0.6 is), `fuzzy_match_friend`
returns the winning candidate as best together with the same top-candidates
list a non-match would get, and that list contains the best match itself —
it is not empty.  (As frozen, the claim says the candidates list is empty
on a match; `c3_counterexample` refutes that.) -/
theorem c3_candidates_on_match (q : Str) (friends : List SplitwiseFriend) (θ : ℚ)
    (hf : friends ≠ []) (hθ : 0 ≤ θ)
    (hmatch : θ ≤ (fuzzy_match_friend q friends θ).2.1) :
    ∃ f, (fuzzy_match_friend q friends θ).1 = some f ∧
      f ∈ (fuzzy_match_friend q friends θ).2.2 := by
  obtain ⟨f0, fs, rfl⟩ := List.exists_cons_of_ne_nil hf
  obtain ⟨bf, bs, rest, hsort, heq⟩ := fuzzy_match_friend_cons q f0 fs θ
  rw [heq] at hmatch ⊢
  change θ ≤ bs at hmatch
  refine ⟨bf, ?_, ?_⟩
  · change (if θ ≤ bs then some bf else none) = some bf
    rw [if_pos hmatch]
  · have h08 : θ * 0.8 ≤ bs := by
      have : θ * 0.8 ≤ θ := by nlinarith
      exact le_trans this hmatch
    change bf ∈ ((((bf, bs) :: rest).take 3).filter
      (fun p => decide (θ * 0.8 ≤ p.2))).map Prod.fst
    rw [List.take_succ_cons, List.filter_cons]
    simp only [decide_eq_true_eq, h08, if_true, List.map_cons]
    exact List.mem_cons_self _ _

theorem c3_candidates_on_match_witness :
    (([⟨1, "john".toList, none, none⟩] : List SplitwiseFriend) ≠ []) ∧
      (0 : ℚ) ≤ 0.6 ∧
      (0.6 : ℚ) ≤ (fuzzy_match_friend ("john".toList)
        [⟨1, "john".toList, none, none⟩] 0.6).2.1 ∧
      ∃ f, (fuzzy_match_friend ("john".toList)
          [⟨1, "john".toList, none, none⟩] 0.6).1 = some f ∧
        f ∈ (fuzzy_match_friend ("john".toList)
          [⟨1, "john".toList, none, none⟩] 0.6).2.2 := by
  have hm : (0.6 : ℚ) ≤ (fuzzy_match_friend ("john".toList)
      [⟨1, "john".toList, none, none⟩] 0.6).2.1 := by
    rw [fuzzy_match_friend_singleton]
    have hs : friendScore (stripStr (lowerStr ("john".toList)))
        ⟨1, "john".toList, none, none⟩ = 1 := by decide
    rw [hs]
    norm_num
  exact ⟨by simp, by norm_num, hm,
    c3_candidates_on_match _ _ _ (by simp) (by norm_num) hm⟩

/-- **C8**: for every query and every threshold, `fuzzy_match_friend` on an
empty candidate list returns `best = none`, score 0.0, and an empty
suggestions list (and, being a total Lean function, never raises). -/
theorem c8_empty_friends (q : Str) (threshold : ℚ) :
    fuzzy_match_friend q [] threshold = (none, 0, []) := rfl

/-- **C9**: with a nonempty friends list and a query that normalizes
(lowercase, trimmed) to the empty string, `fuzzy_match_friend` at the
default threshold 0.6 returns a non-null best match whose score is at
least 0.85: the empty string is a substring of every full-name projection,
so every candidate receives the 0.85 substring boost, which clears 0.6. -/
theorem c9_empty_query_matches (q : Str) (friends : List SplitwiseFriend)
    (hf : friends ≠ []) (hq : stripStr (lowerStr q) = []) :
    (fuzzy_match_friend q friends 0.6).1 ≠ none ∧
      (0.85 : ℚ) ≤ (fuzzy_match_friend q friends 0.6).2.1 := by
  obtain ⟨f0, fs, rfl⟩ := List.exists_cons_of_ne_nil hf
  obtain ⟨bf, bs, rest, hsort, heq⟩ := fuzzy_match_friend_cons q f0 fs 0.6
  have hmem0 : (f0, friendScore (stripStr (lowerStr q)) f0)
      ∈ (f0 :: fs).map (fun f => (f, friendScore (stripStr (lowerStr q)) f)) :=
    List.mem_map_of_mem _ (List.mem_cons_self _ _)
  have hperm := List.mergeSort_perm
    ((f0 :: fs).map fun f => (f, friendScore (stripStr (lowerStr q)) f))
    (fun x y => decide (y.2 ≤ x.2))
  have hmem : (f0, friendScore (stripStr (lowerStr q)) f0) ∈ (bf, bs) :: rest := by
    rw [← hsort]
    exact hperm.mem_iff.mpr hmem0
  have hpair : ((bf, bs) :: rest).Pairwise
      (fun x y : SplitwiseFriend × ℚ => decide (y.2 ≤ x.2) = true) := by
    rw [← hsort]
    exact List.sorted_mergeSort
      (fun a b c hab hbc => by
        simp only [decide_eq_true_eq] at *
        exact le_trans hbc hab)
      (fun a b => by
        simp only [Bool.or_eq_true, decide_eq_true_eq]
        exact le_total b.2 a.2)
      _
  have h0 : (0.85 : ℚ) ≤ friendScore (stripStr (lowerStr q)) f0 := by
    rw [hq]
    exact friendScore_empty_query f0
  have hscore : (0.85 : ℚ) ≤ bs := by
    rcases List.mem_cons.mp hmem with heq0 | hmemrest
    · have : friendScore (stripStr (lowerStr q)) f0 = bs := congrArg Prod.snd heq0
      rw [← this]
      exact h0
    · have hle := (List.pairwise_cons.mp hpair).1 _ hmemrest
      simp only [decide_eq_true_eq] at hle
      exact le_trans h0 hle
  rw [heq]
  constructor
  · change (if (0.6 : ℚ) ≤ bs then some bf else none) ≠ none
    rw [if_pos (le_trans (by norm_num) hscore)]
    simp
  · change (0.85 : ℚ) ≤ bs
    exact hscore

theorem c9_empty_query_matches_witness :
    (([⟨1, "ann".toList, none, none⟩] : List SplitwiseFriend) ≠ []) ∧
      stripStr (lowerStr []) = [] ∧
      (fuzzy_match_friend [] [⟨1, "ann".toList, none, none⟩] 0.6).1 ≠ none ∧
      (0.85 : ℚ) ≤ (fuzzy_match_friend [] [⟨1, "ann".toList, none, none⟩] 0.6).2.1 :=
  ⟨by simp, rfl, c9_empty_query_matches [] _ (by simp) rfl⟩

/-!
## Currency detection and amount parsing (`detect_currency`, `parse_amount`)
-/

/-- `detect_currency` (src/main.py:261-281): symbol checks run on the
original string, keyword checks on its lowercased and whitespace-stripped
form; the if/elif chain fixes the priority order USD, EUR, GBP, JPY, INR,
CAD, AUD. -/
def detect_currency (s : Str) : Option String :=
  let amount_lower := stripStr (lowerStr s)
  if containsStr s ("$".toList) || containsStr amount_lower ("dollar".toList)
      || containsStr amount_lower ("usd".toList) then some ("USD")
  else if containsStr s ("€".toList) || containsStr amount_lower ("euro".toList)
      || containsStr amount_lower ("eur".toList) then some ("EUR")
  else if containsStr s ("£".toList) || containsStr amount_lower ("pound".toList)
      || containsStr amount_lower ("gbp".toList) then some ("GBP")
  else if containsStr s ("¥".toList) || containsStr amount_lower ("yen".toList)
      || containsStr amount_lower ("jpy".toList) then some ("JPY")
  else if containsStr s ("₹".toList) || containsStr amount_lower ("rupee".toList)
      || containsStr amount_lower ("inr".toList) then some ("INR")
  else if containsStr amount_lower ("cad".toList) then some ("CAD")
  else if containsStr amount_lower ("aud".toList) then some ("AUD")
  else none

/-- First match wins over an ordered rule table.  `currencyRules` below
phrases the spec's "fixed priority order, first matching rule wins and
detection stops" declaratively, to be compared with the if/elif chain of
`detect_currency`. -/
def firstRule : List ((Str → Bool) × String) → Str → Option String
  | [], _ => none
  | (p, c) :: rest, s => if p s then some c else firstRule rest s

def currencyRules : List ((Str → Bool) × String) :=
  [(fun s => containsStr s ("$".toList)
      || containsStr (stripStr (lowerStr s)) ("dollar".toList)
      || containsStr (stripStr (lowerStr s)) ("usd".toList), "USD"),
   (fun s => containsStr s ("€".toList)
      || containsStr (stripStr (lowerStr s)) ("euro".toList)
      || containsStr (stripStr (lowerStr s)) ("eur".toList), "EUR"),
   (fun s => containsStr s ("£".toList)
      || containsStr (stripStr (lowerStr s)) ("pound".toList)
      || containsStr (stripStr (lowerStr s)) ("gbp".toList), "GBP"),
   (fun s => containsStr s ("¥".toList)
      || containsStr (stripStr (lowerStr s)) ("yen".toList)
      || containsStr (stripStr (lowerStr s)) ("jpy".toList), "JPY"),
   (fun s => containsStr s ("₹".toList)
      || containsStr (stripStr (lowerStr s)) ("rupee".toList)
      || containsStr (stripStr (lowerStr s)) ("inr".toList), "INR"),
   (fun s => containsStr (stripStr (lowerStr s)) ("cad".toList), "CAD"),
   (fun s => containsStr (stripStr (lowerStr s)) ("aud".toList), "AUD")]

/-- The token list stripped by `parse_amount` (src/main.py:291), in source
order: "eur" comes before "euros". -/
def currencyTokens : List Str :=
  ["$".toList, "€".toList, "£".toList, "¥".toList, "₹".toList,
   "dollars".toList, "dollar".toList, "usd".toList, "eur".toList, "gbp".toList,
   "inr".toList, "jpy".toList, "cad".toList, "aud".toList,
   "rupees".toList, "rupee".toList, "pounds".toList, "euros".toList]

def removeAllGo (tok : Str) : ℕ → Str → Str
  | 0, s => s
  | fuel + 1, s =>
    match s with
    | [] => []
    | c :: rest =>
      if !tok.isEmpty && isPrefixStr tok (c :: rest) then
        removeAllGo tok fuel ((c :: rest).drop tok.length)
      else c :: removeAllGo tok fuel rest

/-- Python `s.replace(tok, "")` for a nonempty `tok`: remove every
non-overlapping occurrence, scanning left to right.  Each step consumes at
least one character of `s`, so fuel `s.length` is exhaustive (at fuel 0
the remaining string is empty). -/
def removeAll (tok s : Str) : Str := removeAllGo tok s.length s

/-- The stripping loop of `parse_amount` (src/main.py:290-292): starting
from the stripped raw string, for each token in order lowercase the
accumulator, remove every occurrence of the token, and strip again. -/
def stripTokens (s : Str) : Str :=
  currencyTokens.foldl (fun cleaned tok => stripStr (removeAll tok (lowerStr cleaned)))
    (stripStr s)

def digitsVal (ds : Str) : ℕ :=
  ds.foldl (fun acc c => 10 * acc + (c.toNat - '0'.toNat)) 0

def parseExp (mant : ℚ) (t : Str) : Option ℚ :=
  let es : ℤ × Str :=
    match t with
    | '+' :: u => (1, u)
    | '-' :: u => (-1, u)
    | u => (1, u)
  let eds := es.2.takeWhile Char.isDigit
  if eds.isEmpty then none
  else if ¬ (es.2.drop eds.length).isEmpty then none
  else
    let e : ℤ := es.1 * (digitsVal eds : ℤ)
    some (if 0 ≤ e then mant * (10 : ℚ) ^ e.toNat else mant / (10 : ℚ) ^ (-e).toNat)

/-- Model of the `Decimal(str)` constructor on finite numeric literals:
optional sign, integer digits, optional fraction, optional exponent; the
whole string must be consumed and at least one digit must be present in
the mantissa.  (Non-finite literals such as "nan"/"inf" and underscore
grouping are not modelled; no claim depends on them.) -/
def parseDecimal (s : Str) : Option ℚ :=
  let sgn : ℚ × Str :=
    match s with
    | '+' :: t => (1, t)
    | '-' :: t => (-1, t)
    | t => (1, t)
  let s1 := sgn.2
  let intPart := s1.takeWhile Char.isDigit
  let s2 := s1.drop intPart.length
  let fracAndRest : Str × Str :=
    match s2 with
    | '.' :: t => (t.takeWhile Char.isDigit, t.drop (t.takeWhile Char.isDigit).length)
    | t => ([], t)
  let fracPart := fracAndRest.1
  let s3 := fracAndRest.2
  if intPart.isEmpty && fracPart.isEmpty then none
  else
    let mant : ℚ := sgn.1 * (digitsVal (intPart ++ fracPart) : ℚ) / ((10 : ℚ) ^ fracPart.length)
    match s3 with
    | [] => some mant
    | 'e' :: t => parseExp mant t
    | 'E' :: t => parseExp mant t
    | _ => none

inductive AmountResult where
  | ok (value : ℚ) (currency : Option String)
  | invalidAmount (raw : Str)
deriving DecidableEq

/-- `parse_amount` (src/main.py:284-297): detect the currency on the raw
string, strip the token list, parse the residue as a Decimal; on parse
failure raise `ValueError(f"Invalid amount: {amount_str}")`, modelled as
`invalidAmount` carrying the original raw string. -/
def parse_amount (s : Str) : AmountResult :=
  let detected_currency := detect_currency s
  match parseDecimal (stripTokens s) with
  | some v => .ok v detected_currency
  | none => .invalidAmount s

/-- **C4**: `parse("$30")` returns `(30, USD)`; `parse("25.50 eur")`
returns `(25.50, EUR)`; `parse("abc")` fails with `InvalidAmount`
carrying the original raw string; detection runs over the original,
pre-token-stripping string in the fixed priority order USD → EUR → GBP →
JPY → INR → CAD → AUD with the first matching rule winning
(`detect_currency` coincides with first-match over `currencyRules`), and
a successful parse returns exactly `detect_currency` of the raw input as
its currency. -/
theorem c4_amount_parsing :
    parse_amount ("$30".toList) = .ok 30 (some ("USD")) ∧
    parse_amount ("25.50 eur".toList) = .ok (51/2) (some ("EUR")) ∧
    parse_amount ("abc".toList) = .invalidAmount ("abc".toList) ∧
    (∀ s : Str, detect_currency s = firstRule currencyRules s) ∧
    (∀ (s : Str) (v : ℚ) (c : Option String),
      parse_amount s = .ok v c → c = detect_currency s) := by
  refine ⟨by decide, by decide, by decide, fun s => rfl, fun s v c h => ?_⟩
  simp only [parse_amount] at h
  cases hp : parseDecimal (stripTokens s) with
  | none =>
    rw [hp] at h
    cases h
  | some v' =>
    rw [hp] at h
    cases h
    rfl

theorem c4_amount_parsing_witness :
    parse_amount ("$30".toList) = .ok 30 (some ("USD")) ∧
      some ("USD") = detect_currency ("$30".toList) :=
  ⟨c4_amount_parsing.1,
    c4_amount_parsing.2.2.2.2 ("$30".toList) 30 (some ("USD")) c4_amount_parsing.1⟩

/-- **C10**: on "30 euros" the stripping loop removes the token "eur"
(listed before "euros") first, leaving the non-numeric residue "30 os",
so `parse_amount` raises `ValueError` even though the currency was
correctly detected as EUR. -/
theorem c10_euros_invalid :
    stripTokens ("30 euros".toList) = "30 os".toList ∧
    parse_amount ("30 euros".toList) = .invalidAmount ("30 euros".toList) ∧
    detect_currency ("30 euros".toList) = some ("EUR") :=
  ⟨by decide, by decide, by decide⟩

/-!
## Date parsing (`parse_date`)

`parse_date` reads the wall clock (`datetime.utcnow()`); the clock reading
is an explicit `now` parameter of the embedding.  `strptime` on each of
the eleven fixed formats is modelled by a token matcher: `%Y` is exactly
four digits; `%m` and `%d` follow CPython's regex alternations (two-digit
forms tried before one-digit ones, with backtracking modelled by
`Option.orElse`); `%B`/`%b` match full/abbreviated English month names (no
name is a prefix of another, so at most one alternative matches); literal
whitespace in a format matches one or more whitespace characters; and the
whole string must be consumed.  After the regex phase CPython constructs a
`datetime.date`, which rejects impossible day-of-month combinations
(`ValueError`, so the next format is tried); a missing year defaults to
1900 there, and `parse_date` then replaces it with the current year.
Hour/minute/second of a parsed date are zero; microseconds are not
modelled.  Month names are stored lowercase: `parse_date` lowercases its
input first, and CPython's strptime matches case-insensitively.
-/

structure PyDateTime where
  year : ℕ
  month : ℕ
  day : ℕ
  hour : ℕ
  minute : ℕ
  second : ℕ
deriving DecidableEq

def isLeap (y : ℕ) : Bool := (y % 4 == 0 && y % 100 != 0) || y % 400 == 0

def daysInMonth (y m : ℕ) : ℕ :=
  if m = 2 then (if isLeap y then 29 else 28)
  else if m = 4 ∨ m = 6 ∨ m = 9 ∨ m = 11 then 30
  else 31

/-- `datetime.combine(today - timedelta(days=1), datetime.min.time())`. -/
def startOfPrevDay (now : PyDateTime) : PyDateTime :=
  if 1 < now.day then ⟨now.year, now.month, now.day - 1, 0, 0, 0⟩
  else if 1 < now.month then
    ⟨now.year, now.month - 1, daysInMonth now.year (now.month - 1), 0, 0, 0⟩
  else ⟨now.year - 1, 12, 31, 0, 0, 0⟩

inductive Tok where
  | lit (c : Char)
  | sp
  | yy
  | mm
  | dd
  | monthFull
  | monthAbbr
deriving DecidableEq

structure DateParts where
  py : Option ℕ
  pm : Option ℕ
  pd : Option ℕ
deriving DecidableEq

def monthsFull : List (Str × ℕ) :=
  [("january".toList, 1), ("february".toList, 2), ("march".toList, 3),
   ("april".toList, 4), ("may".toList, 5), ("june".toList, 6),
   ("july".toList, 7), ("august".toList, 8), ("september".toList, 9),
   ("october".toList, 10), ("november".toList, 11), ("december".toList, 12)]

def monthsAbbr : List (Str × ℕ) :=
  [("jan".toList, 1), ("feb".toList, 2), ("mar".toList, 3), ("apr".toList, 4),
   ("may".toList, 5), ("jun".toList, 6), ("jul".toList, 7), ("aug".toList, 8),
   ("sep".toList, 9), ("oct".toList, 10), ("nov".toList, 11), ("dec".toList, 12)]

def monthFind : List (Str × ℕ) → Str → Option (ℕ × ℕ)
  | [], _ => none
  | (nm, idx) :: rest, s =>
    if isPrefixStr nm s then some (nm.length, idx) else monthFind rest s

def isDig (c : Char) : Bool := decide ('0' ≤ c ∧ c ≤ '9')

def dVal (c : Char) : ℕ := c.toNat - '0'.toNat

def isM2 (c1 c2 : Char) : Bool :=
  (c1 == '1' && decide ('0' ≤ c2 ∧ c2 ≤ '2')) || (c1 == '0' && decide ('1' ≤ c2 ∧ c2 ≤ '9'))

def isD2 (c1 c2 : Char) : Bool :=
  (c1 == '3' && (c2 == '0' || c2 == '1')) || ((c1 == '1' || c1 == '2') && isDig c2)
    || (c1 == '0' && decide ('1' ≤ c2 ∧ c2 ≤ '9'))

def isD1 (c : Char) : Bool := decide ('1' ≤ c ∧ c ≤ '9')

def runToks : List Tok → Str → DateParts → Option DateParts
  | [], s, p => if s.isEmpty then some p else none
  | .lit ch :: ts, s, p =>
    match s with
    | [] => none
    | c :: rest => if c = ch then runToks ts rest p else none
  | .sp :: ts, s, p =>
    match s with
    | [] => none
    | c :: rest =>
      if c.isWhitespace then runToks ts (rest.dropWhile Char.isWhitespace) p else none
  | .yy :: ts, s, p =>
    match s with
    | c1 :: c2 :: c3 :: c4 :: rest =>
      if isDig c1 && isDig c2 && isDig c3 && isDig c4 then
        runToks ts rest
          { p with py := some (1000 * dVal c1 + 100 * dVal c2 + 10 * dVal c3 + dVal c4) }
      else none
    | _ => none
  | .mm :: ts, s, p =>
    (match s with
     | c1 :: c2 :: rest =>
       if isM2 c1 c2 then runToks ts rest { p with pm := some (10 * dVal c1 + dVal c2) }
       else none
     | _ => none) <|>
    (match s with
     | c1 :: rest => if isD1 c1 then runToks ts rest { p with pm := some (dVal c1) } else none
     | [] => none)
  | .dd :: ts, s, p =>
    (match s with
     | c1 :: c2 :: rest =>
       if isD2 c1 c2 then runToks ts rest { p with pd := some (10 * dVal c1 + dVal c2) }
       else none
     | _ => none) <|>
    (match s with
     | c1 :: rest => if isD1 c1 then runToks ts rest { p with pd := some (dVal c1) } else none
     | [] => none)
  | .monthFull :: ts, s, p =>
    match monthFind monthsFull s with
    | some r => runToks ts (s.drop r.1) { p with pm := some r.2 }
    | none => none
  | .monthAbbr :: ts, s, p =>
    match monthFind monthsAbbr s with
    | some r => runToks ts (s.drop r.1) { p with pm := some r.2 }
    | none => none

/-- Run one strptime format: token matching, then the `datetime.date`
construction with its day-of-month validation and the 1900 default year. -/
def runFmt (f : List Tok) (s : Str) : Option PyDateTime :=
  match runToks f s ⟨none, none, none⟩ with
  | none => none
  | some p =>
    let y := p.py.getD 1900
    let m := p.pm.getD 1
    let d := p.pd.getD 1
    if d ≤ daysInMonth y m then some ⟨y, m, d, 0, 0, 0⟩ else none

def fmtISO : List Tok := [.yy, .lit '-', .mm, .lit '-', .dd]
def fmtMDY : List Tok := [.mm, .lit '/', .dd, .lit '/', .yy]
def fmtDMY : List Tok := [.dd, .lit '/', .mm, .lit '/', .yy]
def fmtBdYc : List Tok := [.monthFull, .sp, .dd, .lit ',', .sp, .yy]
def fmtbdYc : List Tok := [.monthAbbr, .sp, .dd, .lit ',', .sp, .yy]
def fmtBdY : List Tok := [.monthFull, .sp, .dd, .sp, .yy]
def fmtbdY : List Tok := [.monthAbbr, .sp, .dd, .sp, .yy]
def fmtdBY : List Tok := [.dd, .sp, .monthFull, .sp, .yy]
def fmtdbY : List Tok := [.dd, .sp, .monthAbbr, .sp, .yy]
def fmtBd : List Tok := [.monthFull, .sp, .dd]
def fmtbd : List Tok := [.monthAbbr, .sp, .dd]

/-- The format list of `parse_date` (src/main.py:233-245), in source order. -/
def dateFormats : List (List Tok) :=
  [fmtISO, fmtMDY, fmtDMY, fmtBdYc, fmtbdYc, fmtBdY, fmtbdY, fmtdBY, fmtdbY, fmtBd, fmtbd]

def fmtHasYear (f : List Tok) : Bool := f.contains Tok.yy

def setYear (dt : PyDateTime) (y : ℕ) : PyDateTime := { dt with year := y }

/-- The format loop of `parse_date`: first successful format wins; a
format without `%Y` has its year replaced by the current year. -/
def tryFormats (todayYear : ℕ) : List (List Tok) → Str → Option PyDateTime
  | [], _ => none
  | f :: rest, s =>
    match runFmt f s with
    | some dt => some (if fmtHasYear f then dt else setYear dt todayYear)
    | none => tryFormats todayYear rest s

/-- `parse_date` (src/main.py:218-258). -/
def parse_date (now : PyDateTime) (date_str : Option Str) : PyDateTime :=
  match date_str with
  | none => now
  | some raw =>
    if raw.isEmpty then now
    else
      let ds := lowerStr (stripStr raw)
      if ds = "today".toList ∨ ds = "now".toList then now
      else if ds = "yesterday".toList then startOfPrevDay now
      else
        match tryFormats now.year dateFormats ds with
        | some dt => dt
        | none => now

theorem tryFormats_eq_none (y : ℕ) (s : Str) :
    ∀ fs : List (List Tok), (∀ f ∈ fs, runFmt f s = none) → tryFormats y fs s = none := by
  intro fs
  induction fs with
  | nil => intro _; rfl
  | cons f rest ih =>
    intro h
    have hf := h f (List.mem_cons_self _ _)
    simp only [tryFormats, hf]
    exact ih (fun g hg => h g (List.mem_cons_of_mem _ hg))

/-- **C5**: `parse_date` is total — a Lean function into concrete
date-times, never raising — and missing input, empty input, and any
string that normalizes to neither a relative keyword nor a string matched
by one of the eleven formats resolve silently to the current UTC instant
`now`, with no error signalled to the caller. -/
theorem c5_date_parser_total_fallback :
    (∀ now : PyDateTime, parse_date now none = now) ∧
    (∀ now : PyDateTime, parse_date now (some []) = now) ∧
    (∀ (now : PyDateTime) (s : Str),
      (∀ f ∈ dateFormats, runFmt f (lowerStr (stripStr s)) = none) →
      lowerStr (stripStr s) ≠ "today".toList →
      lowerStr (stripStr s) ≠ "now".toList →
      lowerStr (stripStr s) ≠ "yesterday".toList →
      parse_date now (some s) = now) := by
  refine ⟨fun now => rfl, fun now => rfl, fun now s hfmt ht hn hy => ?_⟩
  simp only [parse_date, ht, hn, hy, or_self, if_false,
    tryFormats_eq_none now.year (lowerStr (stripStr s)) dateFormats hfmt, ite_self]

theorem c5_date_parser_total_fallback_witness :
    (∀ f ∈ dateFormats, runFmt f (lowerStr (stripStr ("gibberish".toList))) = none) ∧
      lowerStr (stripStr ("gibberish".toList)) ≠ "today".toList ∧
      lowerStr (stripStr ("gibberish".toList)) ≠ "now".toList ∧
      lowerStr (stripStr ("gibberish".toList)) ≠ "yesterday".toList ∧
      parse_date ⟨2026, 1, 2, 3, 4, 5⟩ (some ("gibberish".toList)) = ⟨2026, 1, 2, 3, 4, 5⟩ := by
  have h1 : ∀ f ∈ dateFormats, runFmt f (lowerStr (stripStr ("gibberish".toList))) = none := by
    decide
  exact ⟨h1, by decide, by decide, by decide,
    c5_date_parser_total_fallback.2.2 ⟨2026, 1, 2, 3, 4, 5⟩ ("gibberish".toList) h1
      (by decide) (by decide) (by decide)⟩

/-- A string accepted by the `%m/%d/%Y` matcher has a `/` as its second or
third character, so the earlier ISO `%Y-%m-%d` matcher (four leading
digits) rejects it. -/
theorem runFmt_mdy_iso_none (t : Str) (d : PyDateTime)
    (h : runFmt fmtMDY t = some d) : runFmt fmtISO t = none := by
  match t with
  | [] => rfl
  | [c1] => rfl
  | [c1, c2] => rfl
  | [c1, c2, c3] => rfl
  | c1 :: c2 :: c3 :: c4 :: rest =>
    by_cases h2 : c2 = '/'
    · subst h2
      have hd : isDig '/' = false := by decide
      simp [runFmt, fmtISO, runToks, hd]
    · by_cases h3 : c3 = '/'
      · subst h3
        have hd : isDig '/' = false := by decide
        simp [runFmt, fmtISO, runToks, hd]
      · exfalso
        simp [runFmt, fmtMDY, runToks, h2, h3] at h

/-- **C6**: the eleven formats are tried in a fixed order with the first
successful parse winning, so every string parseable both as `%m/%d/%Y`
and as `%d/%m/%Y` (such as "03/04/2026") is interpreted by `parse_date`
as US month/day, never as the European reading (the only earlier format,
ISO, cannot match such a string, by `runFmt_mdy_iso_none`). -/
theorem c6_us_date_priority (now : PyDateTime) (s : Str) (dus deu : PyDateTime)
    (hus : runFmt fmtMDY (lowerStr (stripStr s)) = some dus)
    (heu : runFmt fmtDMY (lowerStr (stripStr s)) = some deu) :
    parse_date now (some s) = dus := by
  have hkw : ∀ kw : Str, runFmt fmtMDY kw = none → lowerStr (stripStr s) ≠ kw := by
    intro kw hk hcontra
    rw [hcontra, hk] at hus
    exact Option.noConfusion hus
  have ht := hkw ("today".toList) (by decide)
  have hn := hkw ("now".toList) (by decide)
  have hy := hkw ("yesterday".toList) (by decide)
  have hiso := runFmt_mdy_iso_none _ _ hus
  have hyr : fmtHasYear fmtMDY = true := by decide
  have hne : List.isEmpty s = false := by
    cases s with
    | nil =>
      exfalso
      have h0 : runFmt fmtMDY (lowerStr (stripStr ([] : Str))) = none := by decide
      rw [h0] at hus
      exact Option.noConfusion hus
    | cons a t => rfl
  simp only [parse_date, ht, hn, hy, or_self, if_false, hne, Bool.false_eq_true,
    dateFormats, tryFormats, hiso, hus, hyr, if_true]

theorem c6_us_date_priority_witness :
    runFmt fmtMDY (lowerStr (stripStr ("03/04/2026".toList))) = some ⟨2026, 3, 4, 0, 0, 0⟩ ∧
      runFmt fmtDMY (lowerStr (stripStr ("03/04/2026".toList))) = some ⟨2026, 4, 3, 0, 0, 0⟩ ∧
      parse_date ⟨2026, 5, 1, 2, 3, 4⟩ (some ("03/04/2026".toList)) = ⟨2026, 3, 4, 0, 0, 0⟩ :=
  ⟨by decide, by decide,
    c6_us_date_priority ⟨2026, 5, 1, 2, 3, 4⟩ ("03/04/2026".toList)
      ⟨2026, 3, 4, 0, 0, 0⟩ ⟨2026, 4, 3, 0, 0, 0⟩ (by decide) (by decide)⟩

/-- C7 counterexample: `parse_date` is not a function of its explicit
input alone: invoked twice with the equal argument "today" under two
different clock readings (`datetime.utcnow()`, the `now` parameter of the
embedding) it returns two different results, so the frozen claim's
"all four components depend on no hidden state" fails for `parse_date`. -/
theorem c7_counterexample :
    parse_date ⟨2026, 1, 2, 3, 4, 5⟩ (some ("today".toList)) ≠
      parse_date ⟨2026, 6, 7, 8, 9, 10⟩ (some ("today".toList)) := by decide

/-- **C7** (amended): `fuzzy_match_friend`, `fuzzy_match_group`,
`parse_amount` and `compute_equal_shares` are pure, deterministic
functions of their inputs — two invocations with equal arguments return
equal results — while `parse_date` is deterministic only given its
argument together with the current UTC clock reading, on which it
genuinely depends (`c7_counterexample`). -/
theorem c7_determinism :
    (∀ (q q' : Str) (fs fs' : List SplitwiseFriend) (θ θ' : ℚ),
      q = q' → fs = fs' → θ = θ' →
      fuzzy_match_friend q fs θ = fuzzy_match_friend q' fs' θ') ∧
    (∀ (q q' : Str) (gs gs' : List SplitwiseGroup) (θ θ' : ℚ),
      q = q' → gs = gs' → θ = θ' →
      fuzzy_match_group q gs θ = fuzzy_match_group q' gs' θ') ∧
    (∀ s s' : Str, s = s' → parse_amount s = parse_amount s') ∧
    (∀ (t t' : ℚ) (n n' : ℕ), t = t' → n = n' →
      compute_equal_shares t n = compute_equal_shares t' n') ∧
    (∀ (now now' : PyDateTime) (d d' : Option Str), now = now' → d = d' →
      parse_date now d = parse_date now' d') := by
  refine ⟨?_, ?_, ?_, ?_, ?_⟩ <;> intros <;> subst_vars <;> rfl

theorem c7_determinism_witness :
    ("30".toList : Str) = "30".toList ∧
      parse_amount ("30".toList) = parse_amount ("30".toList) ∧
      parse_date ⟨2026, 1, 1, 0, 0, 0⟩ (some ("today".toList))
        = parse_date ⟨2026, 1, 1, 0, 0, 0⟩ (some ("today".toList)) :=
  ⟨rfl, c7_determinism.2.2.1 ("30".toList) ("30".toList) rfl,
    c7_determinism.2.2.2.2 ⟨2026, 1, 1, 0, 0, 0⟩ ⟨2026, 1, 1, 0, 0, 0⟩
      (some ("today".toList)) (some ("today".toList)) rfl rfl⟩
